import Mathlib

/-!
# SunLinker — formal model of the tree editor in `src/App.jsx`

A shallow embedding of the SunLinker application state and its editing
operations.  Nodes of the sunburst tree are rose trees whose data carries the
fields of the JavaScript node objects (`id`, `label`, `color`, `baseColor`,
`depth`, `vertices`); `children` is the list of subtrees.  The uuid strings
generated by `uuidv4()` are modelled as natural numbers supplied explicitly to
each operation; the d3 colour helpers (`d3.schemeTableau10`,
`d3.color(...).brighter(...)`) are external library functions and enter the
model as function parameters `scheme : Nat → String` and
`brighter : String → Nat → String`.
-/

namespace SunLinker

/-- A vertex marker (`{ id: uuidv4(), color: ... }` in `createVertex`). -/
structure Vertex where
  id : Nat
  color : String
deriving DecidableEq, Repr

/-- A link edge `{from, to}` as appended by the vertex `onMouseUp` handler.
`fromId`/`toId` model the JS fields `from`/`to`. -/
structure Edge where
  fromId : Nat
  toId : Nat
deriving DecidableEq, Repr

/-- The non-recursive fields of a tree node object. -/
structure NodeData where
  id : Nat
  label : String
  color : String
  baseColor : Option String
  depth : Nat
  vertices : List Vertex
deriving DecidableEq, Repr

/-- A tree node: data fields plus the `children` array. -/
inductive Node : Type where
  | node (data : NodeData) (children : List Node) : Node
deriving Repr

def Node.data : Node → NodeData
  | .node d _ => d

def Node.children : Node → List Node
  | .node _ ts => ts

def Node.id (n : Node) : Nat := n.data.id

def Node.label (n : Node) : String := n.data.label

def Node.color (n : Node) : String := n.data.color

def Node.baseColor (n : Node) : Option String := n.data.baseColor

def Node.depth (n : Node) : Nat := n.data.depth

def Node.vertices (n : Node) : List Vertex := n.data.vertices

/-! ## Tree helpers translated from `src/App.jsx`

Each recursive helper comes with a `...List` companion because Lean's
structural recursion over the nested inductive is via mutual recursion on the
children list; `..._eq_map` lemmas below restate them via `List.map`. -/

/-- Source `makeNode(label, color, baseColor, depth)` (App.jsx 33–41); `id` stands
for the fresh `uuidv4()`. -/
def makeNode (id : Nat) (label : String) (color : String)
    (baseColor : Option String) (depth : Nat) : Node :=
  .node ⟨id, label, color, baseColor, depth, []⟩ []

mutual

/-- Source `cloneTree` (App.jsx 43–47). -/
def cloneTree : Node → Node
  | .node d ts => .node d (cloneTreeList ts)

def cloneTreeList : List Node → List Node
  | [] => []
  | t :: ts => cloneTree t :: cloneTreeList ts

end

mutual

/-- Source `findAndApply(node, id, fn)` (App.jsx 49–55). -/
def findAndApply (n : Node) (id : Nat) (fn : Node → Node) : Node :=
  match n with
  | .node d ts =>
    if d.id = id then fn (.node d ts)
    else .node d (findAndApplyList ts id fn)

def findAndApplyList (ts : List Node) (id : Nat) (fn : Node → Node) :
    List Node :=
  match ts with
  | [] => []
  | t :: ts => findAndApply t id fn :: findAndApplyList ts id fn

end

mutual

/-- Source `clearAllVertices` (App.jsx 57–61). -/
def clearAllVertices : Node → Node
  | .node d ts => .node { d with vertices := [] } (clearAllVerticesList ts)

def clearAllVerticesList : List Node → List Node
  | [] => []
  | t :: ts => clearAllVertices t :: clearAllVerticesList ts

end

mutual

/-- Source `removeRec` inside `removeNode` (App.jsx 162–168): drop every child whose
id is the target, recurse into the rest, copy `vertices`. -/
def removeRec (targetId : Nat) : Node → Node
  | .node d ts => .node d (removeRecList targetId ts)

def removeRecList (targetId : Nat) : List Node → List Node
  | [] => []
  | t :: ts =>
    if t.id = targetId then removeRecList targetId ts
    else removeRec targetId t :: removeRecList targetId ts

end

/-- The update function passed to `findAndApply` by `addChild`
(App.jsx 142–150). -/
def addChildFn (scheme : Nat → String) (brighter : String → Nat → String)
    (newId : Nat) (n : Node) : Node :=
  match n with
  | .node d ts =>
    let base := d.baseColor.getD (scheme (ts.length % 10))
    let depth := d.depth + 1
    let color := if depth = 1 then base else brighter base (depth - 1)
    .node d (ts ++ [makeNode newId "Node" color (some base) depth])

/-- The tree transformation performed by `addChild` (App.jsx 139–151). -/
def addChildTree (scheme : Nat → String) (brighter : String → Nat → String)
    (targetId newId : Nat) (t : Node) : Node :=
  findAndApply (clearAllVertices (cloneTree t)) targetId
    (addChildFn scheme brighter newId)

/-- The update function passed to `findAndApply` by `applyEdit`
(App.jsx 194–197). -/
def applyEditFn (txt : String) (n : Node) : Node :=
  match n with
  | .node d ts => .node { d with label := txt } ts

/-- The update function passed to `findAndApply` by `createVertex`
(App.jsx 204–214): append a fresh vertex coloured one level brighter. -/
def createVertexFn (brighter : String → Nat → String) (vid : Nat)
    (n : Node) : Node :=
  match n with
  | .node d ts =>
    .node { d with vertices := d.vertices ++ [⟨vid, brighter d.color 1⟩] } ts

/-- Models `root.children.push(child)` on a freshly made node. -/
def pushChild (n : Node) (c : Node) : Node :=
  match n with
  | .node d ts => .node d (ts ++ [c])

/-- The initial tree (App.jsx 71–76) and the tree built by `createProject`
(App.jsx 102–109): a white root with one child coloured
`d3.schemeTableau10[0]`. -/
def initialTree (scheme : Nat → String) (rootId childId : Nat) : Node :=
  pushChild (makeNode rootId "Root" "#ffffff" none 0)
    (makeNode childId "Node" (scheme 0) (some (scheme 0)) 1)

/-! ## Application state and handlers -/

/-- The React state relevant to the tree/edge claims: `tree`, `edges`,
`dragVertexId`. -/
structure AppState where
  tree : Node
  edges : List Edge
  dragVertexId : Option Nat
deriving Repr

/-- Initial state: `useState` initialisers (App.jsx 71–88). -/
def initState (scheme : Nat → String) (rootId childId : Nat) : AppState :=
  ⟨initialTree scheme rootId childId, [], none⟩

/-- The `addChild` handler (App.jsx 138–157): rewrite the tree, clear edges and
the drag source. -/
def addChild (scheme : Nat → String) (brighter : String → Nat → String)
    (targetId newId : Nat) (s : AppState) : AppState :=
  ⟨addChildTree scheme brighter targetId newId s.tree, [], none⟩

/-- The `removeNode` handler (App.jsx 159–175): no-op when the target is the
root; otherwise prune and clear edges and the drag source. -/
def removeNode (targetId : Nat) (s : AppState) : AppState :=
  if s.tree.id = targetId then s
  else ⟨removeRec targetId (cloneTree s.tree), [], none⟩

/-- The `applyEdit` handler (App.jsx 192–200): relabel the target node. -/
def applyEdit (targetId : Nat) (txt : String) (s : AppState) : AppState :=
  { s with tree := findAndApply (cloneTree s.tree) targetId (applyEditFn txt) }

/-- The `createVertex` handler (App.jsx 202–217). -/
def createVertex (brighter : String → Nat → String) (targetId vid : Nat)
    (s : AppState) : AppState :=
  { s with
    tree := findAndApply (cloneTree s.tree) targetId
      (createVertexFn brighter vid) }

/-- The `createProject` handler (App.jsx 102–109). -/
def createProject (scheme : Nat → String) (rootId childId : Nat)
    (_ : AppState) : AppState :=
  ⟨initialTree scheme rootId childId, [], none⟩

/-- Vertex `onMouseDown` handler (App.jsx 366–369). -/
def vertexMouseDown (vid : Nat) (s : AppState) : AppState :=
  { s with dragVertexId := some vid }

/-- Vertex `onMouseUp` handler (App.jsx 370–376): append an edge only when a
drag is in progress and the source differs from the target, then end the
drag. -/
def vertexMouseUp (vid : Nat) (s : AppState) : AppState :=
  match s.dragVertexId with
  | some d =>
    if d ≠ vid then ⟨s.tree, s.edges ++ [⟨d, vid⟩], none⟩
    else { s with dragVertexId := none }
  | none => { s with dragVertexId := none }

/-- One user-visible state transition of the application. -/
inductive Step (scheme : Nat → String) (brighter : String → Nat → String) :
    AppState → AppState → Prop where
  | addChild (tid nid : Nat) (s : AppState) :
      Step scheme brighter s (addChild scheme brighter tid nid s)
  | removeNode (tid : Nat) (s : AppState) :
      Step scheme brighter s (removeNode tid s)
  | applyEdit (tid : Nat) (txt : String) (s : AppState) :
      Step scheme brighter s (applyEdit tid txt s)
  | createVertex (tid vid : Nat) (s : AppState) :
      Step scheme brighter s (createVertex brighter tid vid s)
  | createProject (rid cid : Nat) (s : AppState) :
      Step scheme brighter s (createProject scheme rid cid s)
  | mouseDown (vid : Nat) (s : AppState) :
      Step scheme brighter s (vertexMouseDown vid s)
  | mouseUp (vid : Nat) (s : AppState) :
      Step scheme brighter s (vertexMouseUp vid s)

/-- States reachable from the initial state through the handlers. -/
inductive Reachable (scheme : Nat → String)
    (brighter : String → Nat → String) : AppState → Prop where
  | init (rootId childId : Nat) :
      Reachable scheme brighter (initState scheme rootId childId)
  | step {s s' : AppState} : Reachable scheme brighter s →
      Step scheme brighter s s' → Reachable scheme brighter s'

/-! ## Observers on trees -/

mutual

/-- All node ids of a tree, in preorder. -/
def allIds : Node → List Nat
  | .node d ts => d.id :: allIdsList ts

def allIdsList : List Node → List Nat
  | [] => []
  | t :: ts => allIds t ++ allIdsList ts

end

mutual

/-- All nodes of a tree (each with its subtree), in preorder. -/
def allNodes : Node → List Node
  | .node d ts => .node d ts :: allNodesList ts

def allNodesList : List Node → List Node
  | [] => []
  | t :: ts => allNodes t ++ allNodesList ts

end

mutual

/-- The `(id, vertices)` pairs of all nodes, in preorder. -/
def verticesMap : Node → List (Nat × List Vertex)
  | .node d ts => (d.id, d.vertices) :: verticesMapList ts

def verticesMapList : List Node → List (Nat × List Vertex)
  | [] => []
  | t :: ts => verticesMap t ++ verticesMapList ts

end

mutual

/-- Predicate `depthsOk d t`: the `depth` field of every node equals its actual
distance from the root of `t`, assuming that root sits at distance `d`. -/
def depthsOk (d : Nat) : Node → Bool
  | .node dat ts => (dat.depth == d) && depthsOkList (d + 1) ts

def depthsOkList (d : Nat) : List Node → Bool
  | [] => true
  | t :: ts => depthsOk d t && depthsOkList d ts

end

/-- A node record without its `vertices` field. -/
structure SkelData where
  id : Nat
  label : String
  color : String
  baseColor : Option String
  depth : Nat
deriving DecidableEq, Repr

/-- A tree shape: every field of every node except `vertices`. -/
inductive Skel : Type where
  | node (data : SkelData) (children : List Skel) : Skel
deriving Repr

mutual

/-- Forget the `vertices` field of every node. -/
def skeleton : Node → Skel
  | .node d ts =>
    .node ⟨d.id, d.label, d.color, d.baseColor, d.depth⟩ (skeletonList ts)

def skeletonList : List Node → List Skel
  | [] => []
  | t :: ts => skeleton t :: skeletonList ts

end

/-- The mass function passed to `d3.hierarchy(tree).sum` (App.jsx 116):
`d.children && d.children.length ? 0 : 1`. -/
def mass : Node → Nat
  | .node _ [] => 1
  | .node _ (_ :: _) => 0

mutual

/-- Modelled from the d3-hierarchy documentation of `node.sum(value)`: the
`value` of a node is `value(node)` plus the sum of its descendants'
values. -/
def sumValue : Node → Nat
  | .node d ts => mass (.node d ts) + sumValueList ts

def sumValueList : List Node → Nat
  | [] => 0
  | t :: ts => sumValue t + sumValueList ts

end

mutual

/-- Spec-side: the number of leaf descendants of a node (a leaf counts
itself). -/
def leafCount : Node → Nat
  | .node _ [] => 1
  | .node _ (t :: ts) => leafCountList (t :: ts)

def leafCountList : List Node → Nat
  | [] => 0
  | t :: ts => leafCount t + leafCountList ts

end

mutual

/-- Spec-side, from the amended C1: the `(id, vertices)` pairs of the nodes
that survive removing every node with id `targetId` (the root is kept
unconditionally, as in `removeNode`). -/
def survivorVerts (targetId : Nat) : Node → List (Nat × List Vertex)
  | .node d ts => (d.id, d.vertices) :: survivorVertsList targetId ts

def survivorVertsList (targetId : Nat) : List Node → List (Nat × List Vertex)
  | [] => []
  | t :: ts =>
    if t.id = targetId then survivorVertsList targetId ts
    else survivorVerts targetId t ++ survivorVertsList targetId ts

end

/-- The node reached from `t` by following the child indices in `p`. -/
def getPath : Node → List Nat → Option Node
  | t, [] => some t
  | .node _ ts, i :: p =>
    match ts[i]? with
    | some c => getPath c p
    | none => none

/-- Spec-side: replace the subtree at path `p` by `r`, leaving every node off
the path untouched. -/
def replaceAt : Node → List Nat → Node → Node
  | _, [], r => r
  | .node d ts, i :: p, r =>
    match ts[i]? with
    | some c => .node d (ts.set i (replaceAt c p r))
    | none => .node d ts

/-! ## Concrete sample values

Used to instantiate the external-library function parameters and to evaluate
the operations at specific inputs. -/

/-- The value of `d3.schemeTableau10[0]`, used for every index here. -/
def sampleScheme : Nat → String := fun _ => "#4e79a7"

/-- An arbitrary instantiation of the external brighten-function parameter. -/
def sampleBrighter : String → Nat → String := fun c _ => c

/-- Root (id 0) with two leaf children; the first carries one vertex. -/
def t1 : Node :=
  .node ⟨0, "Root", "#ffffff", none, 0, []⟩
    [.node ⟨1, "A", "#4e79a7", some "#4e79a7", 1, [⟨9, "#aaaaaa"⟩]⟩ [],
     .node ⟨2, "B", "#f28e2c", some "#f28e2c", 1, []⟩ []]

def s1 : AppState := ⟨t1, [], none⟩

/-- Root (id 0) with one leaf child (the initial tree shape). -/
def t2 : Node :=
  .node ⟨0, "Root", "#ffffff", none, 0, []⟩
    [.node ⟨1, "Node", "#4e79a7", some "#4e79a7", 1, []⟩ []]

def s2 : AppState := ⟨t2, [], none⟩

/-! ## Basic lemmas -/

/-- Member-wise induction principle for the nested inductive `Node`. -/
theorem Node.inductionOn {P : Node → Prop}
    (h : ∀ d ts, (∀ t ∈ ts, P t) → P (.node d ts)) : ∀ t, P t := by
  intro t
  induction t using Node.rec (motive_2 := fun ts => ∀ u ∈ ts, P u) with
  | node d ts ih => exact h d ts ih
  | nil => rename_i u hu; exact absurd hu (List.not_mem_nil u)
  | cons hd tl ih1 ih2 =>
    rename_i u hu
    rcases List.mem_cons.mp hu with h1 | h2
    · exact h1 ▸ ih1
    · exact ih2 u h2


@[simp]
theorem Node.data_node (d : NodeData) (ts : List Node) :
    (Node.node d ts).data = d := rfl

@[simp]
theorem Node.children_node (d : NodeData) (ts : List Node) :
    (Node.node d ts).children = ts := rfl

@[simp]
theorem Node.id_node (d : NodeData) (ts : List Node) :
    (Node.node d ts).id = d.id := rfl

@[simp]
theorem Node.label_node (d : NodeData) (ts : List Node) :
    (Node.node d ts).label = d.label := rfl

@[simp]
theorem Node.baseColor_node (d : NodeData) (ts : List Node) :
    (Node.node d ts).baseColor = d.baseColor := rfl

@[simp]
theorem Node.depth_node (d : NodeData) (ts : List Node) :
    (Node.node d ts).depth = d.depth := rfl

@[simp]
theorem Node.vertices_node (d : NodeData) (ts : List Node) :
    (Node.node d ts).vertices = d.vertices := rfl

@[simp]
theorem cloneTree_eq (t : Node) : cloneTree t = t := by
  induction t using Node.inductionOn with
  | h d ts ih =>
    rw [cloneTree]
    congr 1
    induction ts with
    | nil => rfl
    | cons u us ihl =>
      rw [cloneTreeList, ih u (List.mem_cons_self u us),
        ihl fun v hv => ih v (List.mem_cons_of_mem u hv)]

@[simp]
theorem findAndApplyList_eq (ts : List Node) (id : Nat) (fn : Node → Node) :
    findAndApplyList ts id fn = ts.map (findAndApply · id fn) := by
  induction ts with
  | nil => rfl
  | cons t ts ih => rw [findAndApplyList, ih, List.map_cons]

@[simp]
theorem clearAllVerticesList_eq (ts : List Node) :
    clearAllVerticesList ts = ts.map clearAllVertices := by
  induction ts with
  | nil => rfl
  | cons t ts ih => rw [clearAllVerticesList, ih, List.map_cons]

@[simp]
theorem skeletonList_eq (ts : List Node) :
    skeletonList ts = ts.map skeleton := by
  induction ts with
  | nil => rfl
  | cons t ts ih => rw [skeletonList, ih, List.map_cons]

@[simp]
theorem depthsOkList_eq (d : Nat) (ts : List Node) :
    depthsOkList d ts = ts.all (depthsOk d) := by
  induction ts with
  | nil => rfl
  | cons t ts ih => rw [depthsOkList, ih, List.all_cons]

theorem mem_allNodesList {n : Node} {ts : List Node} :
    n ∈ allNodesList ts ↔ ∃ t ∈ ts, n ∈ allNodes t := by
  induction ts with
  | nil => simp [allNodesList]
  | cons t ts ih => simp [allNodesList, ih, List.mem_append]

theorem mem_allIdsList {x : Nat} {ts : List Node} :
    x ∈ allIdsList ts ↔ ∃ t ∈ ts, x ∈ allIds t := by
  induction ts with
  | nil => simp [allIdsList]
  | cons t ts ih => simp [allIdsList, ih, List.mem_append]

/-! ## C7: accumulated value = leaf count -/

theorem sumValue_eq_leafCount_aux (t : Node) : sumValue t = leafCount t := by
  induction t using Node.inductionOn with
  | h d ts ih =>
    cases ts with
    | nil => rfl
    | cons u us =>
      rw [sumValue, leafCount, mass]
      have : ∀ vs : List Node, (∀ v ∈ vs, sumValue v = leafCount v) →
          sumValueList vs = leafCountList vs := by
        intro vs h
        induction vs with
        | nil => rfl
        | cons w ws ihl =>
          rw [sumValueList, leafCountList, h w (List.mem_cons_self w ws),
            ihl fun v hv => h v (List.mem_cons_of_mem w hv)]
      rw [this (u :: us) ih, Nat.zero_add]

/-- C7: the mass assignment `d.children && d.children.length ? 0 : 1` gives
each leaf weight 1 and each internal node weight 0, and the accumulated
`sum` value of every node equals its number of leaf descendants. -/
theorem c7_value_eq_leafCount (t : Node) :
    (∀ d, mass (.node d []) = 1) ∧
    (∀ d c cs, mass (.node d (c :: cs)) = 0) ∧
    sumValue t = leafCount t :=
  ⟨fun _ => rfl, fun _ _ _ => rfl, sumValue_eq_leafCount_aux t⟩

/-! ## C6: clearAllVertices clears every vertex list and keeps the rest -/

theorem clearAllVertices_skeleton (t : Node) :
    skeleton (clearAllVertices t) = skeleton t := by
  induction t using Node.inductionOn with
  | h d ts ih =>
    rw [clearAllVertices, skeleton, skeleton]
    simp only [clearAllVerticesList_eq, skeletonList_eq, List.map_map]
    congr 1
    exact List.map_congr_left fun u hu => ih u hu

theorem clearAllVertices_vertices {t : Node} {n : Node}
    (hn : n ∈ allNodes (clearAllVertices t)) : n.vertices = [] := by
  induction t using Node.inductionOn with
  | h d ts ih =>
    rw [clearAllVertices, allNodes] at hn
    rcases List.mem_cons.mp hn with h1 | h2
    · subst h1; rfl
    · rcases mem_allNodesList.mp h2 with ⟨u, hu, hmem⟩
      rw [clearAllVerticesList_eq] at hu
      rcases List.mem_map.mp hu with ⟨v, hv, rfl⟩
      exact ih v hv hmem

/-- C6: `clearAllVertices` empties the `vertices` list of every node while
leaving every other field and the parent-child structure unchanged (the
skeleton — ids, labels, colors, base colors, depths, child structure — is
preserved). -/
theorem c6_clearAllVertices_spec (t : Node) :
    (∀ n ∈ allNodes (clearAllVertices t), n.vertices = []) ∧
    skeleton (clearAllVertices t) = skeleton t :=
  ⟨fun _ hn => clearAllVertices_vertices hn, clearAllVertices_skeleton t⟩

/-- Witness for C6 at a concrete tree. -/
theorem c6_clearAllVertices_spec_witness :
    (∀ n ∈ allNodes (clearAllVertices t1), n.vertices = []) ∧
    skeleton (clearAllVertices t1) = skeleton t1 :=
  c6_clearAllVertices_spec t1

/-! ## Path lemmas and the characterisation of findAndApply -/

theorem getPath_nil (t : Node) : getPath t [] = some t := by
  cases t with | node d ts => rfl

theorem getPath_cons_some {d : NodeData} {ts : List Node} {c : Node}
    {i : Nat} (p : List Nat) (hc : ts[i]? = some c) :
    getPath (.node d ts) (i :: p) = getPath c p := by
  rw [getPath, hc]

theorem getPath_cons_none {d : NodeData} {ts : List Node}
    {i : Nat} (p : List Nat) (hc : ts[i]? = none) :
    getPath (.node d ts) (i :: p) = none := by
  rw [getPath, hc]

theorem replaceAt_nil (t r : Node) : replaceAt t [] r = r := by
  cases t with | node d ts => rfl

theorem replaceAt_cons_some {d : NodeData} {ts : List Node} {c : Node}
    {i : Nat} (p : List Nat) (hc : ts[i]? = some c) (r : Node) :
    replaceAt (.node d ts) (i :: p) r = .node d (ts.set i (replaceAt c p r)) := by
  rw [replaceAt, hc]

/-- Any node reached by a path has its id among the tree's ids. -/
theorem getPath_id_mem {p : List Nat} :
    ∀ {t n : Node}, getPath t p = some n → n.id ∈ allIds t := by
  induction p with
  | nil =>
    intro t n h
    rw [getPath_nil] at h
    injection h with h
    subst h
    cases t with
    | node d ts => exact List.mem_cons_self _ _
  | cons i p ih =>
    intro t n h
    cases t with
    | node d ts =>
      cases hc : ts[i]? with
      | none => rw [getPath_cons_none p hc] at h; cases h
      | some c =>
        rw [getPath_cons_some p hc] at h
        rw [allIds]
        exact List.mem_cons_of_mem _
          (mem_allIdsList.mpr ⟨c, List.getElem?_mem hc, ih h⟩)

/-- If the target id is absent, `findAndApply` is the identity. -/
theorem findAndApply_not_mem {tid : Nat} (fn : Node → Node) :
    ∀ {t : Node}, tid ∉ allIds t → findAndApply t tid fn = t := by
  intro t
  induction t using Node.inductionOn with
  | h d ts ih =>
    intro h
    rw [allIds] at h
    have h1 : ¬ d.id = tid := fun e => h (e ▸ List.mem_cons_self _ _)
    have h2 : tid ∉ allIdsList ts := fun hm => h (List.mem_cons_of_mem _ hm)
    rw [findAndApply, if_neg h1]
    congr 1
    have aux : ∀ us : List Node,
        (∀ u ∈ us, tid ∉ allIds u → findAndApply u tid fn = u) →
        tid ∉ allIdsList us → findAndApplyList us tid fn = us := by
      intro us
      induction us with
      | nil => intro _ _; rfl
      | cons v vs ihl =>
        intro hih hmem
        rw [allIdsList] at hmem
        rw [findAndApplyList,
          hih v (List.mem_cons_self v vs)
            (fun hm => hmem (List.mem_append.mpr (Or.inl hm))),
          ihl (fun w hw => hih w (List.mem_cons_of_mem v hw))
            (fun hm => hmem (List.mem_append.mpr (Or.inr hm)))]
    exact aux ts ih h2

theorem findAndApplyList_not_mem {tid : Nat} (fn : Node → Node)
    {ts : List Node} (h : tid ∉ allIdsList ts) :
    findAndApplyList ts tid fn = ts := by
  induction ts with
  | nil => rfl
  | cons u us ih =>
    rw [allIdsList] at h
    rw [findAndApplyList,
      findAndApply_not_mem fn (fun hm => h (List.mem_append.mpr (Or.inl hm))),
      ih (fun hm => h (List.mem_append.mpr (Or.inr hm)))]

theorem findAndApplyList_replaceAt {tid : Nat} {fn : Node → Node}
    {c n : Node} {p' : List Nat}
    (hp : getPath c p' = some n) (hid : n.id = tid) :
    ∀ (ts : List Node) (i : Nat), (allIdsList ts).Nodup → ts[i]? = some c →
      (∀ u ∈ ts, (allIds u).Nodup → ∀ (q : List Nat) (m : Node),
        getPath u q = some m → m.id = tid →
        findAndApply u tid fn = replaceAt u q (fn m)) →
      findAndApplyList ts tid fn = ts.set i (replaceAt c p' (fn n)) := by
  have htid : tid ∈ allIds c := hid ▸ getPath_id_mem hp
  intro ts
  induction ts with
  | nil => intro i _ hc _; simp at hc
  | cons u us ih =>
    intro i hnd hc hP
    rw [allIdsList] at hnd
    rcases List.nodup_append.mp hnd with ⟨hnd_u, hnd_us, hdisj⟩
    cases i with
    | zero =>
      rw [List.getElem?_cons_zero] at hc
      injection hc with hc
      subst hc
      rw [findAndApplyList, List.set_cons_zero]
      congr 1
      · exact hP u (List.mem_cons_self u us) hnd_u p' n hp hid
      · exact findAndApplyList_not_mem fn (fun hm => hdisj htid hm)
    | succ j =>
      rw [List.getElem?_cons_succ] at hc
      rw [findAndApplyList, List.set_cons_succ]
      congr 1
      · have htid_us : tid ∈ allIdsList us :=
          mem_allIdsList.mpr ⟨c, List.getElem?_mem hc, htid⟩
        exact findAndApply_not_mem fn (fun hm => hdisj hm htid_us)
      · exact ih j hnd_us hc (fun w hw => hP w (List.mem_cons_of_mem u hw))

/-- On a tree with pairwise-distinct ids, `findAndApply` replaces the subtree
rooted at the node carrying the target id by `fn` of that subtree, and leaves
everything else in place. -/
theorem findAndApply_replaceAt {tid : Nat} (fn : Node → Node) :
    ∀ (t : Node), (allIds t).Nodup → ∀ (p : List Nat) (n : Node),
      getPath t p = some n → n.id = tid →
      findAndApply t tid fn = replaceAt t p (fn n) := by
  intro t
  induction t using Node.inductionOn with
  | h d ts ih =>
    intro hnd p n hp hid
    rw [allIds] at hnd
    rcases List.nodup_cons.mp hnd with ⟨hd_nin, hnd_ts⟩
    by_cases hd : d.id = tid
    · cases p with
      | nil =>
        rw [getPath_nil] at hp
        injection hp with hp
        subst hp
        rw [findAndApply, if_pos hd, replaceAt_nil]
      | cons i p' =>
        exfalso
        cases hc : ts[i]? with
        | none => rw [getPath_cons_none p' hc] at hp; cases hp
        | some c =>
          rw [getPath_cons_some p' hc] at hp
          have h1 : n.id ∈ allIds c := getPath_id_mem hp
          have h2 : tid ∈ allIdsList ts :=
            mem_allIdsList.mpr ⟨c, List.getElem?_mem hc, hid ▸ h1⟩
          exact hd_nin (hd ▸ h2)
    · cases p with
      | nil =>
        rw [getPath_nil] at hp
        injection hp with hp
        subst hp
        exact absurd hid hd
      | cons i p' =>
        cases hc : ts[i]? with
        | none => rw [getPath_cons_none p' hc] at hp; cases hp
        | some c =>
          rw [getPath_cons_some p' hc] at hp
          rw [findAndApply, if_neg hd, replaceAt_cons_some p' hc]
          congr 1
          exact findAndApplyList_replaceAt hp hid ts i hnd_ts hc ih

/-- Replacing along a valid path puts the replacement where the path leads. -/
theorem getPath_replaceAt {p : List Nat} :
    ∀ {t n : Node} (r : Node), getPath t p = some n →
      getPath (replaceAt t p r) p = some r := by
  induction p with
  | nil => intro t n r _; rw [replaceAt_nil, getPath_nil]
  | cons i p ih =>
    intro t n r hp
    cases t with
    | node d ts =>
      cases hc : ts[i]? with
      | none => rw [getPath_cons_none p hc] at hp; cases hp
      | some c =>
        rw [getPath_cons_some p hc] at hp
        have hlt : i < ts.length := by
          rcases List.getElem?_eq_some_iff.mp hc with ⟨h, _⟩
          exact h
        rw [replaceAt_cons_some p hc,
          getPath_cons_some p (List.getElem?_set_self hlt)]
        exact ih r hp

/-- C5: on a tree whose node ids are pairwise distinct — which reachable
application states satisfy, ids being freshly generated uuids —
`findAndApply tree id fn` replaces the subtree rooted at the node whose id is
the target by `fn` of that node and leaves every node off that path, with all
its fields, unchanged (`replaceAt` only rewrites along the path); if no node
carries the target id the tree is returned unchanged.  As a Lean function the
rewrite is pure by construction: the input tree is not modified. -/
theorem c5_findAndApply_spec (t : Node) (tid : Nat) (fn : Node → Node) :
    ((allIds t).Nodup → ∀ (p : List Nat) (n : Node),
      getPath t p = some n → n.id = tid →
      findAndApply t tid fn = replaceAt t p (fn n)) ∧
    (tid ∉ allIds t → findAndApply t tid fn = t) :=
  ⟨fun hnd p n hp hid => findAndApply_replaceAt fn t hnd p n hp hid,
   fun h => findAndApply_not_mem fn h⟩

/-! ## C1: what happens to vertices on shape changes -/

theorem mem_allNodes_iff {n : Node} {d : NodeData} {ts : List Node} :
    n ∈ allNodes (.node d ts) ↔ n = .node d ts ∨ ∃ c ∈ ts, n ∈ allNodes c := by
  rw [allNodes]
  simp [mem_allNodesList, List.mem_cons]

/-- Function `findAndApply` keeps a tree all-vertices-empty when `fn` does. -/
theorem findAndApply_vertices_nil {tid : Nat} {fn : Node → Node}
    (hfn : ∀ m, (∀ k ∈ allNodes m, k.vertices = []) →
      ∀ k ∈ allNodes (fn m), k.vertices = []) :
    ∀ t : Node, (∀ k ∈ allNodes t, k.vertices = []) →
      ∀ k ∈ allNodes (findAndApply t tid fn), k.vertices = [] := by
  intro t
  induction t using Node.inductionOn with
  | h d ts ih =>
    intro ht k hk
    rw [findAndApply] at hk
    by_cases hd : d.id = tid
    · rw [if_pos hd] at hk
      exact hfn _ ht k hk
    · rw [if_neg hd] at hk
      rcases mem_allNodes_iff.mp hk with h1 | ⟨c, hc, hkc⟩
      · subst h1
        simpa using ht _ (mem_allNodes_iff.mpr (Or.inl rfl))
      · rw [findAndApplyList_eq] at hc
        rcases List.mem_map.mp hc with ⟨u, hu, rfl⟩
        exact ih u hu
          (fun m hm => ht m (mem_allNodes_iff.mpr (Or.inr ⟨u, hu, hm⟩))) k hkc

/-- The node appended by `addChildFn` is vertex-free and the update keeps a
vertex-free tree vertex-free. -/
theorem addChildFn_vertices_nil (scheme : Nat → String)
    (brighter : String → Nat → String) (nid : Nat) :
    ∀ m : Node, (∀ k ∈ allNodes m, k.vertices = []) →
      ∀ k ∈ allNodes (addChildFn scheme brighter nid m), k.vertices = [] := by
  intro m hm k hk
  cases m with
  | node d ts =>
    rw [addChildFn] at hk
    rcases mem_allNodes_iff.mp hk with h1 | ⟨c, hc, hkc⟩
    · subst h1
      simpa using hm _ (mem_allNodes_iff.mpr (Or.inl rfl))
    · rcases List.mem_append.mp hc with hc1 | hc2
      · exact hm k (mem_allNodes_iff.mpr (Or.inr ⟨c, hc1, hkc⟩))
      · rw [List.mem_singleton] at hc2
        subst hc2
        rw [makeNode, allNodes] at hkc
        rcases List.mem_cons.mp hkc with h2 | h2
        · subst h2; rfl
        · cases h2

theorem removeRec_verticesMap (tid : Nat) :
    ∀ t : Node, verticesMap (removeRec tid t) = survivorVerts tid t := by
  intro t
  induction t using Node.inductionOn with
  | h d ts ih =>
    rw [removeRec, verticesMap, survivorVerts]
    congr 1
    have aux : ∀ us : List Node,
        (∀ u ∈ us, verticesMap (removeRec tid u) = survivorVerts tid u) →
        verticesMapList (removeRecList tid us) = survivorVertsList tid us := by
      intro us
      induction us with
      | nil => intro _; rfl
      | cons v vs ihl =>
        intro hih
        rw [removeRecList, survivorVertsList]
        by_cases hv : v.id = tid
        · rw [if_pos hv, if_pos hv]
          exact ihl fun w hw => hih w (List.mem_cons_of_mem v hw)
        · rw [if_neg hv, if_neg hv, verticesMapList,
            hih v (List.mem_cons_self v vs),
            ihl fun w hw => hih w (List.mem_cons_of_mem v hw)]
    exact aux ts ih

/-- C1 counterexample: removing the non-root node with id 2 from `s1` leaves
the vertex on node 1 in place, so the resulting tree does **not** have an
empty vertices list at every node. -/
theorem c1_counterexample :
    2 ∈ allIds s1.tree ∧ s1.tree.id ≠ 2 ∧
    verticesMap ((removeNode 2 s1).tree) = [(0, []), (1, [⟨9, "#aaaaaa"⟩])] :=
  ⟨by decide, by decide, rfl⟩

/-- C1 amended: `addChild` clears every vertex marker of the resulting tree,
but `removeNode` does not clear vertices — each surviving node keeps its
vertex list unchanged (`removeNode` clears only the edges). -/
theorem c1_amended_vertices (scheme : Nat → String)
    (brighter : String → Nat → String) (tid nid : Nat) (s : AppState)
    (tid' : Nat) (t : Node) :
    (∀ n ∈ allNodes ((addChild scheme brighter tid nid s).tree),
      n.vertices = []) ∧
    verticesMap (removeRec tid' t) = survivorVerts tid' t := by
  constructor
  · intro n hn
    have hbase : ∀ k ∈ allNodes (clearAllVertices (cloneTree s.tree)),
        k.vertices = [] := fun k hk => clearAllVertices_vertices hk
    exact findAndApply_vertices_nil
      (addChildFn_vertices_nil scheme brighter nid) _ hbase n hn
  · exact removeRec_verticesMap tid' t

/-- Witness for the amended C1 at concrete inputs. -/
theorem c1_amended_vertices_witness :
    (∀ n ∈ allNodes ((addChild sampleScheme sampleBrighter 0 5 s1).tree),
      n.vertices = []) ∧
    verticesMap (removeRec 2 t1) = survivorVerts 2 t1 :=
  c1_amended_vertices sampleScheme sampleBrighter 0 5 s1 2 t1

/-! ## C2: structural edits clear the edges list -/

/-- C2: `addChild` always empties the edges list, and `removeNode` empties it
whenever the target is not the root (targeting the root leaves the state,
edges included, untouched). -/
theorem c2_edges_cleared (scheme : Nat → String)
    (brighter : String → Nat → String) (tid nid : Nat) (s : AppState) :
    (addChild scheme brighter tid nid s).edges = [] ∧
    (s.tree.id ≠ tid → (removeNode tid s).edges = []) := by
  refine ⟨rfl, fun h => ?_⟩
  rw [removeNode, if_neg h]

/-- Witness for C2 at a concrete state. -/
theorem c2_edges_cleared_witness :
    (addChild sampleScheme sampleBrighter 1 9 s2).edges = [] ∧
    (removeNode 1 s2).edges = [] :=
  ⟨(c2_edges_cleared sampleScheme sampleBrighter 1 9 s2).1,
   (c2_edges_cleared sampleScheme sampleBrighter 1 9 s2).2 (by decide)⟩

/-! ## C4: the root is never removed or replaced -/

theorem findAndApply_id {tid : Nat} {fn : Node → Node}
    (hfn : ∀ m, (fn m).id = m.id) (t : Node) :
    (findAndApply t tid fn).id = t.id := by
  cases t with
  | node d ts =>
    rw [findAndApply]
    by_cases hd : d.id = tid
    · rw [if_pos hd, hfn]
    · rw [if_neg hd, Node.id_node, Node.id_node]

theorem clearAllVertices_id (t : Node) : (clearAllVertices t).id = t.id := by
  cases t with | node d ts => rfl

theorem removeRec_id (tid : Nat) (t : Node) :
    (removeRec tid t).id = t.id := by
  cases t with | node d ts => rfl

theorem addChildFn_id (scheme : Nat → String)
    (brighter : String → Nat → String) (nid : Nat) (m : Node) :
    (addChildFn scheme brighter nid m).id = m.id := by
  cases m with | node d ts => rfl

theorem applyEditFn_id (txt : String) (m : Node) :
    (applyEditFn txt m).id = m.id := by
  cases m with | node d ts => rfl

theorem createVertexFn_id (brighter : String → Nat → String) (vid : Nat)
    (m : Node) : (createVertexFn brighter vid m).id = m.id := by
  cases m with | node d ts => rfl

/-- C4: editing operations preserve tree well-formedness.  In this embedding
a tree is well-formed by construction (one root, no cycles, every node
reachable from the root), so the contentful parts are: `removeNode` aimed at
the root's id returns the state unchanged, and every editing operation keeps
the same root node id (the root is never removed or replaced). -/
theorem c4_root_preserved (scheme : Nat → String)
    (brighter : String → Nat → String) (tid nid vid : Nat) (txt : String)
    (s : AppState) :
    removeNode s.tree.id s = s ∧
    (addChild scheme brighter tid nid s).tree.id = s.tree.id ∧
    (removeNode tid s).tree.id = s.tree.id ∧
    (applyEdit tid txt s).tree.id = s.tree.id ∧
    (createVertex brighter tid vid s).tree.id = s.tree.id := by
  refine ⟨by rw [removeNode, if_pos rfl], ?_, ?_, ?_, ?_⟩
  · show (addChildTree scheme brighter tid nid s.tree).id = s.tree.id
    rw [addChildTree,
      findAndApply_id (addChildFn_id scheme brighter nid),
      clearAllVertices_id, cloneTree_eq]
  · by_cases h : s.tree.id = tid
    · rw [removeNode, if_pos h]
    · rw [removeNode, if_neg h]
      show (removeRec tid (cloneTree s.tree)).id = s.tree.id
      rw [removeRec_id, cloneTree_eq]
  · show (findAndApply (cloneTree s.tree) tid (applyEditFn txt)).id = s.tree.id
    rw [findAndApply_id (applyEditFn_id txt), cloneTree_eq]
  · show (findAndApply (cloneTree s.tree) tid
      (createVertexFn brighter vid)).id = s.tree.id
    rw [findAndApply_id (createVertexFn_id brighter vid), cloneTree_eq]

/-- Witness for C5 at a concrete tree: relabelling node 1 of `t1` rewrites
exactly the subtree at path `[0]`, and a missing id leaves `t1` unchanged. -/
theorem c5_findAndApply_spec_witness :
    findAndApply t1 1 (applyEditFn "X") =
      replaceAt t1 [0]
        (applyEditFn "X"
          (.node ⟨1, "A", "#4e79a7", some "#4e79a7", 1, [⟨9, "#aaaaaa"⟩]⟩ [])) ∧
    findAndApply t1 7 (applyEditFn "X") = t1 :=
  ⟨(c5_findAndApply_spec t1 1 (applyEditFn "X")).1 (by decide) [0] _ rfl rfl,
   (c5_findAndApply_spec t1 7 (applyEditFn "X")).2 (by decide)⟩

/-! ## C3: where createVertex attaches vertices -/

/-- C3 counterexample: `createVertex` aimed at the root of `s2` — a node with
a child, hence not a leaf at the deepest ring — still attaches a vertex: the
root ends up with a non-empty vertices list, refuting the claim that only
outermost leaves can carry vertices after `createVertex`. -/
theorem c3_counterexample :
    (createVertex sampleBrighter 0 7 s2).tree.vertices ≠ [] ∧
    (createVertex sampleBrighter 0 7 s2).tree.children.length ≠ 0 :=
  ⟨by decide, by decide⟩

theorem skeleton_findAndApply {tid : Nat} {fn : Node → Node}
    (hfn : ∀ m, skeleton (fn m) = skeleton m) :
    ∀ t : Node, skeleton (findAndApply t tid fn) = skeleton t := by
  intro t
  induction t using Node.inductionOn with
  | h d ts ih =>
    rw [findAndApply]
    by_cases hd : d.id = tid
    · rw [if_pos hd, hfn]
    · rw [if_neg hd, skeleton, skeleton]
      congr 1
      simp only [findAndApplyList_eq, skeletonList_eq, List.map_map]
      exact List.map_congr_left fun u hu => ih u hu

theorem createVertexFn_skeleton (brighter : String → Nat → String) (vid : Nat)
    (m : Node) : skeleton (createVertexFn brighter vid m) = skeleton m := by
  cases m with | node d ts => rfl

/-- C3 amended: `createVertex` attaches the new vertex to the target node
regardless of whether that node is a leaf at the deepest ring: the tree's
skeleton (all fields but the vertex lists) is unchanged, and with distinct
ids the node at the target's path receives exactly its old vertices plus the
fresh one while keeping its children — in particular an internal node also
receives the vertex. -/
theorem c3_amended_createVertex (brighter : String → Nat → String)
    (tid vid : Nat) (s : AppState) :
    skeleton ((createVertex brighter tid vid s).tree) = skeleton s.tree ∧
    ((allIds s.tree).Nodup → ∀ (p : List Nat) (n : Node),
      getPath s.tree p = some n → n.id = tid →
      ∃ m : Node,
        getPath ((createVertex brighter tid vid s).tree) p = some m ∧
        m.vertices = n.vertices ++ [⟨vid, brighter n.color 1⟩] ∧
        m.children = n.children) := by
  constructor
  · show skeleton (findAndApply (cloneTree s.tree) tid
      (createVertexFn brighter vid)) = skeleton s.tree
    rw [cloneTree_eq]
    exact skeleton_findAndApply (createVertexFn_skeleton brighter vid) s.tree
  · intro hnd p n hp hid
    refine ⟨createVertexFn brighter vid n, ?_, ?_, ?_⟩
    · show getPath (findAndApply (cloneTree s.tree) tid
        (createVertexFn brighter vid)) p = _
      rw [cloneTree_eq,
        findAndApply_replaceAt (createVertexFn brighter vid) s.tree hnd p n hp hid]
      exact getPath_replaceAt _ hp
    · cases n with | node d ts => rfl
    · cases n with | node d ts => rfl

/-- Witness for the amended C3, applied at the root of `s2` (an internal
node). -/
theorem c3_amended_createVertex_witness :
    skeleton ((createVertex sampleBrighter 0 7 s2).tree) = skeleton s2.tree ∧
    ∃ m : Node,
      getPath ((createVertex sampleBrighter 0 7 s2).tree) [] = some m ∧
      m.vertices = t2.vertices ++ [⟨7, sampleBrighter t2.color 1⟩] ∧
      m.children = t2.children :=
  ⟨(c3_amended_createVertex sampleBrighter 0 7 s2).1,
   (c3_amended_createVertex sampleBrighter 0 7 s2).2 (by decide) [] t2 rfl rfl⟩

/-! ## C8: the appended child inherits baseColor and depth -/

theorem allIds_clearAllVertices :
    ∀ t : Node, allIds (clearAllVertices t) = allIds t := by
  intro t
  induction t using Node.inductionOn with
  | h d ts ih =>
    rw [clearAllVertices, allIds, allIds]
    congr 1
    have aux : ∀ us : List Node,
        (∀ u ∈ us, allIds (clearAllVertices u) = allIds u) →
        allIdsList (clearAllVerticesList us) = allIdsList us := by
      intro us
      induction us with
      | nil => intro _; rfl
      | cons v vs ihl =>
        intro hih
        rw [clearAllVerticesList, allIdsList, allIdsList,
          hih v (List.mem_cons_self v vs),
          ihl fun w hw => hih w (List.mem_cons_of_mem v hw)]
    exact aux ts ih

theorem getPath_clearAllVertices {p : List Nat} :
    ∀ {t n : Node}, getPath t p = some n →
      getPath (clearAllVertices t) p = some (clearAllVertices n) := by
  induction p with
  | nil =>
    intro t n h
    rw [getPath_nil] at h
    injection h with h
    subst h
    rw [getPath_nil]
  | cons i p ih =>
    intro t n h
    cases t with
    | node d ts =>
      cases hc : ts[i]? with
      | none => rw [getPath_cons_none p hc] at h; cases h
      | some c =>
        rw [getPath_cons_some p hc] at h
        rw [clearAllVertices]
        have hc' : (clearAllVerticesList ts)[i]? = some (clearAllVertices c) := by
          rw [clearAllVerticesList_eq, List.getElem?_map, hc]
          rfl
        rw [getPath_cons_some p hc']
        exact ih h

/-- The child appended by `addChildFn` carries the parent's base color (when
set) and the parent's depth plus one. -/
theorem addChildFn_spec (scheme : Nat → String)
    (brighter : String → Nat → String) (nid : Nat) (m : Node) (b : String)
    (hb : m.baseColor = some b) :
    ∃ c : Node, (addChildFn scheme brighter nid m).children.getLast? = some c ∧
      c.baseColor = some b ∧ c.depth = m.depth + 1 := by
  cases m with
  | node d ts =>
    have hb' : d.baseColor = some b := hb
    refine ⟨makeNode nid "Node"
        (if d.depth + 1 = 1 then d.baseColor.getD (scheme (ts.length % 10))
         else brighter (d.baseColor.getD (scheme (ts.length % 10)))
           (d.depth + 1 - 1))
        (some (d.baseColor.getD (scheme (ts.length % 10)))) (d.depth + 1),
      ?_, ?_, ?_⟩
    · show (addChildFn scheme brighter nid (.node d ts)).children.getLast? = _
      simp only [addChildFn, Node.children_node]
      exact List.getLast?_concat ts
    · simp [makeNode, hb']
    · simp [makeNode]

/-- C8: if the target node has a non-null `baseColor`, the child appended by
`addChild` carries the same `baseColor` and its `depth` equals the parent's
depth plus one. -/
theorem c8_addChild_inherits (scheme : Nat → String)
    (brighter : String → Nat → String) (nid : Nat) (s : AppState)
    (tid : Nat) (p : List Nat) (n : Node) (b : String)
    (hnd : (allIds s.tree).Nodup) (hp : getPath s.tree p = some n)
    (hid : n.id = tid) (hb : n.baseColor = some b) :
    ∃ m c : Node,
      getPath ((addChild scheme brighter tid nid s).tree) p = some m ∧
      m.children.getLast? = some c ∧ c.baseColor = some b ∧
      c.depth = n.depth + 1 := by
  have hnd' : (allIds (clearAllVertices (cloneTree s.tree))).Nodup := by
    rw [cloneTree_eq, allIds_clearAllVertices]
    exact hnd
  have hp' : getPath (clearAllVertices (cloneTree s.tree)) p =
      some (clearAllVertices n) := by
    rw [cloneTree_eq]
    exact getPath_clearAllVertices hp
  have hid' : (clearAllVertices n).id = tid := by
    rw [clearAllVertices_id, hid]
  have hm : getPath ((addChild scheme brighter tid nid s).tree) p =
      some (addChildFn scheme brighter nid (clearAllVertices n)) := by
    show getPath (findAndApply (clearAllVertices (cloneTree s.tree)) tid
      (addChildFn scheme brighter nid)) p = _
    rw [findAndApply_replaceAt (addChildFn scheme brighter nid) _ hnd' p _ hp' hid']
    exact getPath_replaceAt _ hp'
  have hbc : (clearAllVertices n).baseColor = some b := by
    cases n with | node dn tsn => exact hb
  rcases addChildFn_spec scheme brighter nid (clearAllVertices n) b hbc with
    ⟨c, hc1, hc2, hc3⟩
  refine ⟨_, c, hm, hc1, hc2, ?_⟩
  rw [hc3]
  congr 1
  cases n with | node dn tsn => rfl

/-- Witness for C8: adding a child to node 1 of `s2`. -/
theorem c8_addChild_inherits_witness :
    ∃ m c : Node,
      getPath ((addChild sampleScheme sampleBrighter 1 9 s2).tree) [0] =
        some m ∧
      m.children.getLast? = some c ∧ c.baseColor = some "#4e79a7" ∧
      c.depth =
        (Node.node ⟨1, "Node", "#4e79a7", some "#4e79a7", 1, []⟩ []).depth + 1 :=
  c8_addChild_inherits sampleScheme sampleBrighter 9 s2 1 [0]
    (.node ⟨1, "Node", "#4e79a7", some "#4e79a7", 1, []⟩ []) "#4e79a7"
    (by decide) rfl rfl rfl

/-! ## C9: edges never join a vertex to itself -/

/-- C9: in every reachable application state, every recorded edge joins two
distinct vertex ids — the mouse-up handler only appends an edge when a drag
is in progress and the drag source differs from the released vertex, and
every other handler clears or preserves the edges list. -/
theorem c9_edges_irreflexive {scheme : Nat → String}
    {brighter : String → Nat → String} {s : AppState}
    (h : Reachable scheme brighter s) :
    ∀ e ∈ s.edges, e.fromId ≠ e.toId := by
  induction h with
  | init rootId childId => intro e he; cases he
  | @step s0 s1 hr hst ih =>
    cases hst with
    | addChild tid nid _ => intro e he; cases he
    | removeNode tid _ =>
      intro e he
      rw [removeNode] at he
      split at he
      · exact ih e he
      · cases he
    | applyEdit tid txt _ => exact ih
    | createVertex tid vid _ => exact ih
    | createProject rid cid _ => intro e he; cases he
    | mouseDown vid _ => exact ih
    | mouseUp vid _ =>
      intro e he
      rw [vertexMouseUp] at he
      split at he
      · split at he
        · rcases List.mem_append.mp he with h1 | h2
          · exact ih e h1
          · rw [List.mem_singleton] at h2
            subst h2
            rename_i hne
            exact hne
        · exact ih e he
      · exact ih e he

/-- Witness for C9: after dragging from vertex 3 and releasing on vertex 4
from the initial state, the recorded edge joins distinct ids. -/
theorem c9_edges_irreflexive_witness :
    (vertexMouseUp 4 (vertexMouseDown 3 (initState sampleScheme 0 1))).edges =
      [⟨3, 4⟩] ∧
    (⟨3, 4⟩ : Edge).fromId ≠ (⟨3, 4⟩ : Edge).toId :=
  ⟨rfl,
    c9_edges_irreflexive
      (Reachable.step
        (Reachable.step (@Reachable.init sampleScheme sampleBrighter 0 1)
          (Step.mouseDown 3 _))
        (Step.mouseUp 4 _))
      ⟨3, 4⟩ (by decide)⟩

/-! ## C10: depth fields equal actual distances from the root -/

theorem depthsOk_clearAllVertices :
    ∀ (t : Node) (d : Nat), depthsOk d (clearAllVertices t) = depthsOk d t := by
  intro t
  induction t using Node.inductionOn with
  | h dat ts ih =>
    intro d
    rw [clearAllVertices, depthsOk, depthsOk]
    show ((dat.depth == d) && depthsOkList (d + 1) (clearAllVerticesList ts)) =
      ((dat.depth == d) && depthsOkList (d + 1) ts)
    congr 1
    have aux : ∀ us : List Node,
        (∀ u ∈ us, ∀ d', depthsOk d' (clearAllVertices u) = depthsOk d' u) →
        depthsOkList (d + 1) (clearAllVerticesList us) =
          depthsOkList (d + 1) us := by
      intro us
      induction us with
      | nil => intro _; rfl
      | cons v vs ihl =>
        intro hih
        rw [clearAllVerticesList, depthsOkList, depthsOkList,
          hih v (List.mem_cons_self v vs) (d + 1),
          ihl fun w hw => hih w (List.mem_cons_of_mem v hw)]
    exact aux ts ih

theorem depthsOk_removeRec (tid : Nat) :
    ∀ (t : Node) (d : Nat), depthsOk d t = true →
      depthsOk d (removeRec tid t) = true := by
  intro t
  induction t using Node.inductionOn with
  | h dat ts ih =>
    intro d hd
    rw [depthsOk, Bool.and_eq_true] at hd
    rw [removeRec, depthsOk, Bool.and_eq_true]
    refine ⟨hd.1, ?_⟩
    have hts := hd.2
    have aux : ∀ us : List Node,
        (∀ u ∈ us, ∀ d', depthsOk d' u = true →
          depthsOk d' (removeRec tid u) = true) →
        depthsOkList (d + 1) us = true →
        depthsOkList (d + 1) (removeRecList tid us) = true := by
      intro us
      induction us with
      | nil => intro _ _; rfl
      | cons v vs ihl =>
        intro hih hvs
        rw [depthsOkList, Bool.and_eq_true] at hvs
        rw [removeRecList]
        by_cases hv : v.id = tid
        · rw [if_pos hv]
          exact ihl (fun w hw => hih w (List.mem_cons_of_mem v hw)) hvs.2
        · rw [if_neg hv, depthsOkList, Bool.and_eq_true]
          exact ⟨hih v (List.mem_cons_self v vs) (d + 1) hvs.1,
            ihl (fun w hw => hih w (List.mem_cons_of_mem v hw)) hvs.2⟩
    exact aux ts ih hts

theorem depthsOk_findAndApply {tid : Nat} {fn : Node → Node}
    (hfn : ∀ (m : Node) (d' : Nat), depthsOk d' m = true →
      depthsOk d' (fn m) = true) :
    ∀ (t : Node) (d : Nat), depthsOk d t = true →
      depthsOk d (findAndApply t tid fn) = true := by
  intro t
  induction t using Node.inductionOn with
  | h dat ts ih =>
    intro d hd
    rw [findAndApply]
    by_cases hmatch : dat.id = tid
    · rw [if_pos hmatch]
      exact hfn _ d hd
    · rw [if_neg hmatch]
      rw [depthsOk, Bool.and_eq_true] at hd
      rw [depthsOk, Bool.and_eq_true]
      refine ⟨hd.1, ?_⟩
      simp only [findAndApplyList_eq, depthsOkList_eq, List.all_map,
        List.all_eq_true] at hd ⊢
      intro u hu
      exact ih u hu (d + 1) (hd.2 u hu)

theorem addChildFn_depthsOk (scheme : Nat → String)
    (brighter : String → Nat → String) (nid : Nat) :
    ∀ (m : Node) (d' : Nat), depthsOk d' m = true →
      depthsOk d' (addChildFn scheme brighter nid m) = true := by
  intro m d' hm
  cases m with
  | node dat ts =>
    rw [depthsOk, Bool.and_eq_true] at hm
    have hdep : dat.depth = d' := by simpa using hm.1
    simp only [addChildFn, depthsOk, Bool.and_eq_true, depthsOkList_eq,
      List.all_append, List.all_eq_true]
    refine ⟨hm.1, ?_, ?_⟩
    · rw [depthsOkList_eq, List.all_eq_true] at hm
      exact fun u hu => hm.2 u hu
    · intro u hu
      rw [List.mem_singleton] at hu
      subst hu
      show depthsOk (d' + 1) (makeNode _ _ _ _ (dat.depth + 1)) = true
      rw [makeNode, depthsOk, hdep]
      simp

theorem applyEditFn_depthsOk (txt : String) (m : Node) (d' : Nat) :
    depthsOk d' (applyEditFn txt m) = depthsOk d' m := by
  cases m with | node dat ts => rfl

theorem createVertexFn_depthsOk (brighter : String → Nat → String)
    (vid : Nat) (m : Node) (d' : Nat) :
    depthsOk d' (createVertexFn brighter vid m) = depthsOk d' m := by
  cases m with | node dat ts => rfl

/-- C10: in every reachable application state, the `depth` field of every
node equals its actual distance from the root — the initial tree and
`createProject` establish it, and `addChild`, `removeNode`, `applyEdit` and
`createVertex` preserve it. -/
theorem c10_depths_correct {scheme : Nat → String}
    {brighter : String → Nat → String} {s : AppState}
    (h : Reachable scheme brighter s) : depthsOk 0 s.tree = true := by
  induction h with
  | init rootId childId => rfl
  | @step s0 s1 hr hst ih =>
    cases hst with
    | addChild tid nid _ =>
      apply depthsOk_findAndApply (addChildFn_depthsOk scheme brighter nid)
      rw [cloneTree_eq, depthsOk_clearAllVertices]
      exact ih
    | removeNode tid _ =>
      rw [removeNode]
      split
      · exact ih
      · show depthsOk 0 (removeRec tid (cloneTree s0.tree)) = true
        rw [cloneTree_eq]
        exact depthsOk_removeRec tid s0.tree 0 ih
    | applyEdit tid txt _ =>
      show depthsOk 0 (findAndApply (cloneTree s0.tree) tid
        (applyEditFn txt)) = true
      rw [cloneTree_eq]
      exact depthsOk_findAndApply
        (fun m d' hm => by rw [applyEditFn_depthsOk]; exact hm) s0.tree 0 ih
    | createVertex tid vid _ =>
      show depthsOk 0 (findAndApply (cloneTree s0.tree) tid
        (createVertexFn brighter vid)) = true
      rw [cloneTree_eq]
      exact depthsOk_findAndApply
        (fun m d' hm => by rw [createVertexFn_depthsOk]; exact hm) s0.tree 0 ih
    | createProject rid cid _ => rfl
    | mouseDown vid _ => exact ih
    | mouseUp vid _ =>
      rw [vertexMouseUp]
      split
      · split
        · exact ih
        · exact ih
      · exact ih

/-- Witness for C10 at the initial state. -/
theorem c10_depths_correct_witness :
    depthsOk 0 (initState sampleScheme 0 1).tree = true :=
  c10_depths_correct (@Reachable.init sampleScheme sampleBrighter 0 1)

end SunLinker
